import Mathlib

/-!
Verification development for the moonreader-export-pdf-with-highlights tool.

The embedding models the two Python modules `moon_highlighter.py` and
`moon_highlighter_simple.py`.  Pure functions of the source become Lean
functions; the per-run mutable state (the page-text cache) is threaded
explicitly through a `RunState`.  The two external libraries (PyMuPDF's
`page.search_for` / annotation writer and fuzzywuzzy's `partial_ratio`) are
a declared library boundary of the specification; they are modelled from
the spec's description of that boundary, as noted on each such definition.
`RunState` additionally logs each primitive library extraction call
(`page.get_text()` and `page.get_text("words")`), so that the caching
behaviour is observable; the logs do not influence any computed value.
-/

/-! ## Color mapper (`MoonHighlighter.map_color`, moon_highlighter.py lines 90-118) -/

/-- An RGB triple with channels in `[0,1]`, as returned by `map_color`. -/
abbrev ColorRGB := ℚ × ℚ × ℚ

/-- Python's `>>` on its unbounded integers is an arithmetic (floor) right
shift.  For a positive power-of-two divisor, Lean's Euclidean `Int`
division coincides with floor division, hence with Python's shift. -/
def py_shr (n : Int) (k : Nat) : Int := n / (2 ^ k)

/-- Python's `%` with a positive modulus returns the non-negative residue;
for a positive modulus Lean's Euclidean `Int.emod` (the `%` below) agrees. -/
def py_mod (n m : Int) : Int := n % m

/-- The fixed lookup table of known color codes (source lines 101-107). -/
def color_map : List (Int × ColorRGB) :=
  [(1996532479, (1, 1, 0)),
   (-1996554240, (0, 1, 0)),
   (2013265664, (0, 0, 1)),
   (-256, (1, 0, 0)),
   (16711680, (1, 0, 1))]

/-- The fallback decomposition for codes that are not in the table
(source lines 114-117): `abs(value % 256)/255`, `abs((value >> 8) % 256)/255`,
`abs((value >> 16) % 256)/255` — the `abs` is applied to the residue. -/
def fallback_color (c : Int) : ColorRGB :=
  (((py_mod c 256).natAbs : ℚ) / 255,
   ((py_mod (py_shr c 8) 256).natAbs : ℚ) / 255,
   ((py_mod (py_shr c 16) 256).natAbs : ℚ) / 255)

/-- `map_color` (source lines 90-118): table lookup with fallback. -/
def map_color (c : Int) : ColorRGB :=
  match color_map.lookup c with
  | some rgb => rgb
  | none => fallback_color c

/-- The fallback formula exactly as claim C2 words it: `abs` applied to the
code (and to the shifted code) before the `mod`.  Stated only to be compared
with `fallback_color`, which is the source's formula. -/
def fallback_color_claim (c : Int) : ColorRGB :=
  (((py_mod |c| 256).natAbs : ℚ) / 255,
   ((py_mod |py_shr c 8| 256).natAbs : ℚ) / 255,
   ((py_mod |py_shr c 16| 256).natAbs : ℚ) / 255)

/-- The fallback formula as the amended claim C2 states it: the mod is taken
first and yields the non-negative residue, so no absolute value is needed. -/
def fallback_color_amended (c : Int) : ColorRGB :=
  (((py_mod c 256 : ℤ) : ℚ) / 255,
   ((py_mod (py_shr c 8) 256 : ℤ) : ℚ) / 255,
   ((py_mod (py_shr c 16) 256 : ℤ) : ℚ) / 255)

/-! ## Similarity scoring (library boundary: `fuzz.partial_ratio`) -/

/-- Length of the common prefix of two character lists. -/
def match_len : List Char → List Char → Nat
  | a :: as, b :: bs => if a = b then match_len as bs + 1 else 0
  | _, _ => 0

/-- Leftmost longest common substring `(i, j, k)` of two character lists:
`k` maximal with `a[i:i+k] = b[j:j+k]`, ties broken by smallest `i`, then
smallest `j` (difflib's `find_longest_match` rule, autojunk-free). -/
def longest_match (a b : List Char) : Nat × Nat × Nat :=
  (List.range a.length).foldl (fun best i =>
    (List.range b.length).foldl (fun best j =>
      let k := match_len (a.drop i) (b.drop j)
      if best.2.2 < k then (i, j, k) else best) best) (0, 0, 0)

/-- Total size of difflib's matching blocks: recursively split around the
longest common substring.  The first argument is fuel; `a.length + b.length + 1`
always suffices since each recursive call strictly shrinks both sides. -/
def match_total : Nat → List Char → List Char → Nat
  | 0, _, _ => 0
  | fuel + 1, a, b =>
    let ijk := longest_match a b
    if ijk.2.2 = 0 then 0
    else
      match_total fuel (a.take ijk.1) (b.take ijk.2.1) + ijk.2.2 +
        match_total fuel (a.drop (ijk.1 + ijk.2.2)) (b.drop (ijk.2.1 + ijk.2.2))

/-- Round-half-to-even (Python's `round`) of `x / t` for `t > 0`, in `ℕ`. -/
def py_round_div (x t : Nat) : Nat :=
  let q := x / t
  let r := x % t
  if 2 * r < t then q
  else if t < 2 * r then q + 1
  else if q % 2 = 0 then q else q + 1

/-- Modelled from the spec: the 0-100 similarity of two strings, `round` of
`2 * (matched characters) / (total length) * 100` — difflib's
`SequenceMatcher.ratio` as used by fuzzywuzzy (two empty strings give 100,
as in difflib). -/
def seq_ratio (a b : List Char) : Nat :=
  let t := a.length + b.length
  if t = 0 then 100 else py_round_div (200 * match_total (t + 1) a b) t

/-- Modelled from the spec: the partial-ratio score (fuzzywuzzy boundary) —
the best `seq_ratio` of the shorter string against any equal-length window
of the longer string; the library returns 0 whenever either string is empty
(fuzzywuzzy's `check_empty_string` decorator). -/
def sub_ratio (s1 s2 : String) : Nat :=
  if s1.length = 0 ∨ s2.length = 0 then 0
  else
    let a := s1.data
    let b := s2.data
    let sh := if a.length ≤ b.length then a else b
    let lo := if a.length ≤ b.length then b else a
    ((List.range (lo.length - sh.length + 1)).map
      (fun i => seq_ratio sh ((lo.drop i).take sh.length))).foldl max 0

/-- Python's `str.lower()`, character-wise (adequate for the ASCII data the
tool compares). -/
def lower_str (s : String) : String := ⟨s.data.map Char.toLower⟩

/-! ## Data model -/

/-- A four-point quadrilateral on a page (`fitz.Quad`). -/
structure Quad where
  ul : ℚ × ℚ
  ur : ℚ × ℚ
  ll : ℚ × ℚ
  lr : ℚ × ℚ
deriving DecidableEq

/-- One word token of `page.get_text("words")`: bounding box and text
(the block/line/word indices of the Python tuple are unused by the tool). -/
structure PageWord where
  x0 : ℚ
  y0 : ℚ
  x1 : ℚ
  y1 : ℚ
  word : String
deriving DecidableEq

/-- A page of the open document.  `page_text` is what `page.get_text()`
returns and `words` what `page.get_text("words")` returns.  `searchHits`
is the PyMuPDF `page.search_for` library boundary: the quadrilaterals of
every on-page occurrence of a (non-empty) literal string. -/
structure Page where
  page_text : String
  words : List PageWord
  searchHits : String → List Quad

/-- Modelled from the spec: `page.search_for` (PyMuPDF library boundary)
returns one quadrilateral per on-page occurrence of the literal string;
an empty string has no on-page occurrence, so it yields no hits. -/
def search_for (p : Page) (text : String) : List Quad :=
  if text.isEmpty then [] else p.searchHits text

/-- `find_text_exact` (source lines 135-152); the `try/except` around the
library call does not arise in the pure model. -/
def find_text_exact (p : Page) (text : String) : List Quad :=
  search_for p text

/-- One highlight row `(highlightColor, highlightLength, original)` from the
`notes` table. -/
structure HighlightRecord where
  highlightColor : Int
  highlightLength : Int
  original : String
deriving DecidableEq

/-- The per-run mutable state: `self.text_cache` (keyed by page number),
plus instrumentation logs recording the page number of every primitive
`page.get_text()` call (`text_log`) and every `page.get_text("words")`
call (`words_log`).  The logs have no influence on any computed value. -/
structure RunState where
  text_cache : List (Nat × String)
  text_log : List Nat
  words_log : List Nat
deriving DecidableEq

/-- The state at the start of a run (`self.text_cache = {}` in `__init__`). -/
def init_state : RunState := ⟨[], [], []⟩

/-- `extract_page_text` (source lines 120-133): page text with cache. -/
def extract_page_text (i : Nat) (p : Page) (st : RunState) : String × RunState :=
  match st.text_cache.lookup i with
  | some t => (t, st)
  | none =>
    (p.page_text,
     ⟨(i, p.page_text) :: st.text_cache, i :: st.text_log, st.words_log⟩)

/-- `self.fuzzy_threshold` (source line 57). -/
def fuzzy_threshold : Nat := 80

/-- `self.max_fuzzy_results` (source line 58). -/
def max_fuzzy_results : Nat := 5

/-- Insert `x` before the first element of strictly smaller key, after all
elements of greater-or-equal key. -/
def insert_desc (key : α → Nat) (x : α) : List α → List α
  | [] => [x]
  | y :: ys => if key y ≤ key x then x :: y :: ys else y :: insert_desc key x ys

/-- Stable descending insertion sort by key: the semantics of Python's
stable `list.sort(key=..., reverse=True)`. -/
def sort_desc (key : α → Nat) : List α → List α
  | [] => []
  | x :: xs => insert_desc key x (sort_desc key xs)

/-- The quad built from a word's bounding box (source lines 187-189):
`fitz.Quad(Point(x0,y0), Point(x1,y0), Point(x1,y1), Point(x0,y1))`. -/
def quad_of_word (w : PageWord) : Quad :=
  ⟨(w.x0, w.y0), (w.x1, w.y0), (w.x1, w.y1), (w.x0, w.y1)⟩

/-- The token scoring of `find_text_fuzzy` (source lines 171-177): score
every token longer than 3 characters case-insensitively against the
highlight text and keep those scoring `≥ fuzzy_threshold`. -/
def fuzzy_candidates (words : List PageWord) (text : String) : List (PageWord × Nat) :=
  words.filterMap (fun w =>
    if 3 < w.word.length then
      let score := sub_ratio (lower_str text) (lower_str w.word)
      if fuzzy_threshold ≤ score then some (w, score) else none
    else none)

/-- `find_text_fuzzy` (source lines 154-196): extract the page text (cached,
result unused — exactly as in the source), fetch the word tokens (an
uncached library call, logged in `words_log`), collect the scored
candidates, sort descending by score (stably), keep the best
`max_fuzzy_results`, and convert each surviving word to a quad. -/
def find_text_fuzzy (i : Nat) (p : Page) (text : String) (st : RunState) :
    List (Quad × Nat) × RunState :=
  let r0 := extract_page_text i p st
  let st1 := r0.2
  let st2 : RunState := ⟨st1.text_cache, st1.text_log, i :: st1.words_log⟩
  let best := (sort_desc (fun ws => ws.2) (fuzzy_candidates p.words text)).take max_fuzzy_results
  (best.map (fun ws => (quad_of_word ws.1, ws.2)), st2)

/-! ## Pipeline (`process_highlights`, source lines 234-351) -/

/-- The annotation-writer library boundary: given a page number, quads, a
color and the highlighted text, report whether the highlight annotation was
added (`False` models the caught library failure of lines 230-232). -/
abbrev AnnotOracle := Nat → List Quad → ColorRGB → String → Bool

/-- `add_highlight_annotation` (source lines 198-232): returns `False` for an
empty quad list, otherwise defers to the library. -/
def add_highlight_annot (annot : AnnotOracle) (i : Nat) (quads : List Quad)
    (color : ColorRGB) (text : String) : Bool :=
  if quads.isEmpty then false else annot i quads color text

/-- The report counters of one run (source lines 265-269). -/
structure Report where
  total_highlights : Nat
  found_highlights : Nat
  not_found_highlights : Nat
  fuzzy_highlights : Nat
deriving DecidableEq

/-- The counter update of source lines 311-313: `found_highlights += 1`,
and `fuzzy_highlights += 1` when the match came from the fuzzy pass. -/
def inc_found (rep : Report) (fuzzy_used : Bool) : Report :=
  { rep with
    found_highlights := rep.found_highlights + 1,
    fuzzy_highlights := rep.fuzzy_highlights + if fuzzy_used then 1 else 0 }

/-- The counter update `not_found_highlights += 1` (lines 316, 320, 323). -/
def inc_not_found (rep : Report) : Report :=
  { rep with not_found_highlights := rep.not_found_highlights + 1 }

/-- The exact pass (source lines 286-290): scan pages in document order and
stop at the first page whose exact search yields any quad, returning all of
that page's quads (`found_quads.extend(quads); break`). -/
def exact_loop (text : String) : List (Nat × Page) → List Quad
  | [] => []
  | ip :: ps =>
    let quads := find_text_exact ip.2 text
    if quads.isEmpty then exact_loop text ps else quads

/-- The fuzzy pass (source lines 293-302): scan pages in order, stop at the
first page yielding any fuzzy result and take its best `(quad, score)`. -/
def fuzzy_loop (text : String) : List (Nat × Page) → RunState →
    Option (Quad × Nat) × RunState
  | [], st => (none, st)
  | ip :: ps, st =>
    let r := find_text_fuzzy ip.1 ip.2 text st
    match r.1 with
    | [] => fuzzy_loop text ps r.2
    | q :: _ => (some q, r.2)

/-- The annotation loop (source lines 306-318): for each page, keep only the
found quads that reappear in that page's exact search results; on the first
page with survivors, attempt the annotation and stop.  `none` is the
`for`-`else` fall-through of lines 319-321. -/
def annot_loop (annot : AnnotOracle) (text : String) (color : ColorRGB)
    (found_quads : List Quad) : List (Nat × Page) → Option (Nat × List Quad × Bool)
  | [] => none
  | ip :: ps =>
    let page_quads := found_quads.filter (fun q => decide (q ∈ search_for ip.2 text))
    if page_quads.isEmpty then annot_loop annot text color found_quads ps
    else some (ip.1, page_quads, add_highlight_annot annot ip.1 page_quads color text)

/-- The counter outcome of one record (source lines 304-324), applied to the
located quads and the fuzzy flag. -/
def finish_record (annot : AnnotOracle) (pages : List (Nat × Page)) (rep : Report)
    (text : String) (color : ColorRGB) (fd : List Quad × Bool) : Report :=
  if fd.1.isEmpty then inc_not_found rep
  else
    match annot_loop annot text color fd.1 pages with
    | some (_, _, true) => inc_found rep fd.2
    | some (_, _, false) => inc_not_found rep
    | none => inc_not_found rep

/-- The locate step of one record (source lines 282-302): the exact pass,
then — only when it found nothing and fuzzy is enabled — the fuzzy pass,
whose best quad becomes the single found quad with the fuzzy flag set. -/
def located_quads (pages : List (Nat × Page)) (use_fuzzy : Bool) (text : String)
    (st : RunState) : (List Quad × Bool) × RunState :=
  let exact_quads := exact_loop text pages
  let fz :=
    if exact_quads.isEmpty && use_fuzzy then fuzzy_loop text pages st
    else (none, st)
  let fd : List Quad × Bool :=
    if exact_quads.isEmpty then
      match fz.1 with
      | some qs => ([qs.1], true)
      | none => ([], false)
    else (exact_quads, false)
  (fd, fz.2)

/-- One iteration of the record loop (source lines 272-324): map the color,
locate the record via `located_quads`, then count via `finish_record`. -/
def step_record (pages : List (Nat × Page)) (annot : AnnotOracle) (use_fuzzy : Bool)
    (acc : Report × RunState) (hl : HighlightRecord) : Report × RunState :=
  let color := map_color hl.highlightColor
  let loc := located_quads pages use_fuzzy hl.original acc.2
  (finish_record annot pages acc.1 hl.original color loc.1, loc.2)

/-- `process_highlights` (source lines 234-351) restricted to its record
loop: all highlights are processed in order, starting from zeroed counters
(`total_highlights = len(highlights)`) and a fresh per-run state. -/
def process_highlights (doc : List Page) (annot : AnnotOracle) (use_fuzzy : Bool)
    (hls : List HighlightRecord) : Report × RunState :=
  hls.foldl (step_record doc.enum annot use_fuzzy) (⟨hls.length, 0, 0, 0⟩, init_state)

/-! ## Output path (source lines 326-330) -/

/-- The default output file name: the input stem, the fixed suffix, and the
original extension (`f"(stem)_highlighted(suffix)"` of line 328). -/
def default_output_name (stem suffix : String) : String :=
  stem ++ "_highlighted" ++ suffix

/-- The output path: the explicit path when one is given, the default
name otherwise (source lines 327-330). -/
def output_path (stem suffix : String) (explicit : Option String) : String :=
  match explicit with
  | none => default_output_name stem suffix
  | some p => p

/-- Modelled from the spec: the only file a run writes is the saved output
document, `doc.save(output_path)` (source line 334); the input document is
only ever opened for reading (line 260). -/
def saved_files (stem suffix : String) (explicit : Option String) : List String :=
  [output_path stem suffix explicit]

/-! ## Concrete fixtures for the claim instances -/

/-- A page word token "foobar" with bounding box (0,0,10,10). -/
def fooWord : PageWord := ⟨0, 0, 10, 10, "foobar"⟩

/-- A page that displays the token "foobar" and on which exact search finds
nothing (for any needle). -/
def fooPage : Page := ⟨"foobar", [fooWord], fun _ => []⟩

/-- The one-page document around `fooPage`. -/
def fooDoc : List Page := [fooPage]

/-- An annotation writer that always succeeds. -/
def annot_always : AnnotOracle := fun _ _ _ _ => true

/-- A stored highlight "foo" (yellow), as in the spec's fuzzy scenario. -/
def fooRecord : HighlightRecord := ⟨1996532479, 3, "foo"⟩

/-- A page word token "hello" with bounding box (10,10,50,20). -/
def helloWord : PageWord := ⟨10, 10, 50, 20, "hello"⟩

/-- The quad of `helloWord`. -/
def helloQuad : Quad := quad_of_word helloWord

/-- A page holding the literal word "hello" (exact search finds it) and the
token "foobar" (exact search for "foo" finds nothing). -/
def scenarioPage : Page :=
  ⟨"hello foobar", [helloWord, fooWord], fun s => if s = "hello" then [helloQuad] else []⟩

/-- The one-page document around `scenarioPage`. -/
def scenarioDoc : List Page := [scenarioPage]

/-- The stored highlight (1996532479, 5, "hello") of the spec scenario. -/
def helloRecord : HighlightRecord := ⟨1996532479, 5, "hello"⟩

/-- The stored highlight (-256, 3, "foo") of the spec scenario. -/
def fooRecordRed : HighlightRecord := ⟨-256, 3, "foo"⟩

/-! ## Claim theorems -/

/-- C1: on a record whose text is found by the fuzzy pass (token "foobar"
scores 100 ≥ 80 against "foo") but by no exact search, the fuzzy pass does
return the synthesized quad — yet the run's report counts the record under
`not_found_highlights` with `fuzzy_highlights = 0`, because the annotation
loop (source line 307) re-filters the found quads through the exact search
that already failed.  The claim (and the spec scenario `foundFuzzy:1`) says
the record is annotated and counted under `foundFuzzy`. -/
theorem C1_fuzzy_result_never_counted :
    (find_text_fuzzy 0 fooPage "foo" init_state).1 = [(quad_of_word fooWord, 100)] ∧
    (process_highlights fooDoc annot_always true [fooRecord]).1 = ⟨1, 0, 1, 0⟩ := by
  decide

/-- C2 counterexample: at the code -1 (not in the table) the source computes
`abs(value % 256) = 255` per channel, giving (1,1,1), while the claim's
formula `abs(code) mod 256 = 1` gives (1/255, 1/255, 1/255). -/
theorem C2_abs_before_mod_counterexample :
    map_color (-1) = (1, 1, 1) ∧
    fallback_color_claim (-1) = (1 / 255, 1 / 255, 1 / 255) ∧
    map_color (-1) ≠ fallback_color_claim (-1) := by
  have h : map_color (-1) = fallback_color (-1) := rfl
  have e1 : py_mod (-1) 256 = 255 := by decide
  have e2 : py_shr (-1) 8 = -1 := by decide
  have e3 : py_shr (-1) 16 = -1 := by decide
  have habs : |(-1 : Int)| = 1 := by decide
  have e4 : py_mod 1 256 = 1 := by decide
  refine ⟨?_, ?_, ?_⟩
  · rw [h]
    unfold fallback_color
    rw [e1, e2, e3, e1]
    norm_num
  · unfold fallback_color_claim
    rw [e2, e3, habs, e4]
    norm_num
  · rw [h]
    unfold fallback_color fallback_color_claim
    rw [e1, e2, e3, e1, habs, e4]
    intro hEq
    have h1 := congrArg Prod.fst hEq
    norm_num at h1

/-- The `abs` in the source's fallback is a no-op: the residue of a positive
modulus is already non-negative. -/
theorem fallback_abs_noop (c : Int) : fallback_color c = fallback_color_amended c := by
  have cast_nn : ∀ a : Int, 0 ≤ a → ((a.natAbs : ℚ)) = (a : ℚ) := by
    intro a ha
    obtain ⟨n, rfl⟩ := Int.eq_ofNat_of_zero_le ha
    simp
  unfold fallback_color fallback_color_amended
  have n1 : 0 ≤ py_mod c 256 := Int.emod_nonneg _ (by norm_num)
  have n2 : 0 ≤ py_mod (py_shr c 8) 256 := Int.emod_nonneg _ (by norm_num)
  have n3 : 0 ≤ py_mod (py_shr c 16) 256 := Int.emod_nonneg _ (by norm_num)
  rw [cast_nn _ n1, cast_nn _ n2, cast_nn _ n3]

/-- Codes at or above 2^31 are not keys of the table. -/
theorem lookup_none_of_big (c : Int) (h : 2147483648 ≤ c) :
    color_map.lookup c = none := by
  have k1 : (c == 1996532479) = false := by simp only [beq_eq_false_iff_ne]; omega
  have k2 : (c == -1996554240) = false := by simp only [beq_eq_false_iff_ne]; omega
  have k3 : (c == 2013265664) = false := by simp only [beq_eq_false_iff_ne]; omega
  have k4 : (c == -256) = false := by simp only [beq_eq_false_iff_ne]; omega
  have k5 : (c == 16711680) = false := by simp only [beq_eq_false_iff_ne]; omega
  simp [color_map, List.lookup, k1, k2, k3, k4, k5]

/-- C2 (amended): for every 32-bit signed code not in the table, `map_color`
returns the fallback whose channels take the mod first (the non-negative
residue, so the `abs` is a no-op), and the code yields the same fallback
color as its bit-wise-equivalent positive lift `c + 2^32` — in particular a
negative code and its unsigned 32-bit reading agree. -/
theorem C2_fallback_mod_then_abs (c : Int) (h1 : -2147483648 ≤ c)
    (h3 : color_map.lookup c = none) :
    map_color c = fallback_color_amended c ∧
    map_color (c + 4294967296) = map_color c := by
  have hc : map_color c = fallback_color c := by
    unfold map_color
    rw [h3]
  have hbig : color_map.lookup (c + 4294967296) = none :=
    lookup_none_of_big _ (by omega)
  have hc2 : map_color (c + 4294967296) = fallback_color (c + 4294967296) := by
    unfold map_color
    rw [hbig]
  refine ⟨by rw [hc, fallback_abs_noop], ?_⟩
  rw [hc, hc2, fallback_abs_noop, fallback_abs_noop]
  unfold fallback_color_amended
  have e1 : py_mod (c + 4294967296) 256 = py_mod c 256 := by unfold py_mod; omega
  have e2 : py_shr (c + 4294967296) 8 = py_shr c 8 + 16777216 := by
    unfold py_shr; omega
  have e3 : py_shr (c + 4294967296) 16 = py_shr c 16 + 65536 := by
    unfold py_shr; omega
  have e4 : py_mod (py_shr c 8 + 16777216) 256 = py_mod (py_shr c 8) 256 := by
    unfold py_mod; omega
  have e5 : py_mod (py_shr c 16 + 65536) 256 = py_mod (py_shr c 16) 256 := by
    unfold py_mod; omega
  rw [e1, e2, e3, e4, e5]

/-- Witness for C2: the amended statement at the concrete code -1. -/
theorem C2_fallback_mod_then_abs_witness :
    map_color (-1) = fallback_color_amended (-1) ∧
    map_color (-1 + 4294967296) = map_color (-1) :=
  C2_fallback_mod_then_abs (-1) (by decide) (by decide)

/-- C7: each of the five known codes maps to its documented triple, matched
as the exact literal integer; the unsigned 32-bit normalization 4294967040
of the key -256 is NOT in the table and falls back to a different color. -/
theorem C7_known_color_table :
    map_color 1996532479 = (1, 1, 0) ∧
    map_color (-1996554240) = (0, 1, 0) ∧
    map_color 2013265664 = (0, 0, 1) ∧
    map_color (-256) = (1, 0, 0) ∧
    map_color 16711680 = (1, 0, 1) ∧
    map_color 4294967040 ≠ (1, 0, 0) := by
  refine ⟨rfl, rfl, rfl, rfl, rfl, ?_⟩
  have h : map_color 4294967040 = fallback_color 4294967040 := by
    unfold map_color
    rw [lookup_none_of_big 4294967040 (by omega)]
  rw [h]
  intro hEq
  have h1 := congrArg Prod.fst hEq
  have e1 : py_mod (4294967040 : Int) 256 = 0 := by decide
  unfold fallback_color at h1
  rw [e1] at h1
  norm_num at h1

/-- C3 counterexample: processing the same fuzzy-only record twice against
the same page extracts the word-token list twice (`words_log` holds page 0
twice) — the token list is not cached — while the page's plain text is
extracted only once. -/
theorem C3_words_recomputed_each_lookup :
    (process_highlights fooDoc annot_always true [fooRecord, fooRecord]).2.words_log.count 0 = 2 ∧
    ¬ ((process_highlights fooDoc annot_always true [fooRecord, fooRecord]).2.words_log.count 0 ≤ 1) ∧
    (process_highlights fooDoc annot_always true [fooRecord, fooRecord]).2.text_log.count 0 = 1 := by
  decide

/-- C9: with no explicit output path the output document's name is the input
stem, the fixed suffix "_highlighted", and the original extension, and the
input file (stem plus extension) is not among the files the run writes. -/
theorem C9_default_output_new_file (stem suffix : String) :
    output_path stem suffix none = stem ++ "_highlighted" ++ suffix ∧
    (stem ++ suffix) ∉ saved_files stem suffix none := by
  refine ⟨rfl, ?_⟩
  simp only [saved_files, output_path, default_output_name, List.mem_singleton]
  intro h
  have hl := congrArg String.length h
  have h12 : ("_highlighted" : String).length = 12 := rfl
  simp only [String.length_append, h12] at hl
  omega

/-- C8: a two-record batch in which both records are locatable (one by the
exact pass, one by the fuzzy pass), so K = 0 records are unlocatable; the
run processes both records (total 2, and both counters sum to 2), but the
report says `notFound = 1`, not K = 0: the fuzzy-locatable record is
dropped by the annotation loop's re-filter (source line 307). -/
theorem C8_notfound_exceeds_unlocatable :
    exact_loop "hello" scenarioDoc.enum ≠ [] ∧
    (fuzzy_loop "foo" scenarioDoc.enum init_state).1.isSome = true ∧
    (process_highlights scenarioDoc annot_always true [helloRecord, fooRecordRed]).1 =
      ⟨2, 1, 1, 0⟩ := by
  decide

/-- A string of length 0 always scores 0 (the library's empty-string check). -/
theorem sub_ratio_len0 (s1 s2 : String) (h : s1.length = 0) : sub_ratio s1 s2 = 0 := by
  unfold sub_ratio
  rw [if_pos (Or.inl h)]

/-- With an empty highlight text no token is ever a fuzzy candidate. -/
theorem fuzzy_candidates_empty_text (ws : List PageWord) :
    fuzzy_candidates ws "" = [] := by
  unfold fuzzy_candidates
  rw [List.filterMap_eq_nil_iff]
  intro w _
  have h0 : sub_ratio (lower_str "") (lower_str w.word) = 0 := sub_ratio_len0 _ _ rfl
  simp only [h0, fuzzy_threshold]
  split
  · simp
  · rfl

/-- With an empty highlight text `find_text_fuzzy` returns no results. -/
theorem find_text_fuzzy_empty_text (i : Nat) (p : Page) (st : RunState) :
    (find_text_fuzzy i p "" st).1 = [] := by
  simp [find_text_fuzzy, fuzzy_candidates_empty_text, sort_desc]

/-- The exact pass never matches the empty string on any page. -/
theorem exact_loop_empty_text (pages : List (Nat × Page)) :
    exact_loop "" pages = [] := by
  induction pages with
  | nil => rfl
  | cons ip ps ih =>
    have h : find_text_exact ip.2 "" = [] := rfl
    simp [exact_loop, h, ih]

/-- The fuzzy pass never matches the empty string on any page. -/
theorem fuzzy_loop_empty_text (pages : List (Nat × Page)) (st : RunState) :
    (fuzzy_loop "" pages st).1 = none := by
  induction pages generalizing st with
  | nil => rfl
  | cons ip ps ih =>
    simp only [fuzzy_loop]
    rw [find_text_fuzzy_empty_text]
    exact ih _

/-- C5: locating an empty highlight text always yields `NotFound` — the
exact pass returns no quads on any page and the fuzzy pass returns no
candidate, for every document and every per-run state. -/
theorem C5_empty_text_always_notfound (pages : List (Nat × Page)) (st : RunState) :
    exact_loop "" pages = [] ∧ (fuzzy_loop "" pages st).1 = none :=
  ⟨exact_loop_empty_text pages, fuzzy_loop_empty_text pages st⟩

/-- Every record's counting step ends in exactly one of the two updates:
`not_found_highlights + 1`, or `found_highlights + 1` with the fuzzy flag. -/
theorem finish_record_cases (annot : AnnotOracle) (pages : List (Nat × Page))
    (rep : Report) (text : String) (color : ColorRGB) (fd : List Quad × Bool) :
    finish_record annot pages rep text color fd = inc_not_found rep ∨
    finish_record annot pages rep text color fd = inc_found rep fd.2 := by
  unfold finish_record
  split
  · exact Or.inl rfl
  · split
    · exact Or.inr rfl
    · exact Or.inl rfl
    · exact Or.inl rfl

/-- The report update of one record is `inc_not_found` or `inc_found`. -/
theorem step_record_outcome (pages : List (Nat × Page)) (annot : AnnotOracle)
    (use_fuzzy : Bool) (acc : Report × RunState) (hl : HighlightRecord) :
    (step_record pages annot use_fuzzy acc hl).1 = inc_not_found acc.1 ∨
    ∃ b, (step_record pages annot use_fuzzy acc hl).1 = inc_found acc.1 b := by
  simp only [step_record]
  exact (finish_record_cases annot pages acc.1 hl.original (map_color hl.highlightColor)
    (located_quads pages use_fuzzy hl.original acc.2).1).imp id (fun h => ⟨_, h⟩)

/-- When the exact pass finds quads, the locate step returns exactly those
quads, the fuzzy flag stays off, and the state is untouched (the fuzzy
pass does not run). -/
theorem located_quads_of_exact (pages : List (Nat × Page)) (use_fuzzy : Bool)
    (text : String) (st : RunState) (h : exact_loop text pages ≠ []) :
    located_quads pages use_fuzzy text st = ((exact_loop text pages, false), st) := by
  have hE : (exact_loop text pages).isEmpty = false := by
    cases hx : exact_loop text pages with
    | nil => exact absurd hx h
    | cons a l => rfl
  simp [located_quads, hE]

/-- C10: after every run the counters satisfy
`found_highlights + not_found_highlights = total_highlights` and
`fuzzy_highlights ≤ found_highlights`: each record increments exactly one
of found/not-found, and fuzzy only together with found. -/
theorem C10_report_counter_invariants (doc : List Page) (annot : AnnotOracle)
    (use_fuzzy : Bool) (hls : List HighlightRecord) :
    (process_highlights doc annot use_fuzzy hls).1.found_highlights +
      (process_highlights doc annot use_fuzzy hls).1.not_found_highlights =
      (process_highlights doc annot use_fuzzy hls).1.total_highlights ∧
    (process_highlights doc annot use_fuzzy hls).1.fuzzy_highlights ≤
      (process_highlights doc annot use_fuzzy hls).1.found_highlights := by
  have main : ∀ (l : List HighlightRecord) (acc : Report × RunState),
      (l.foldl (step_record doc.enum annot use_fuzzy) acc).1.total_highlights =
        acc.1.total_highlights ∧
      (l.foldl (step_record doc.enum annot use_fuzzy) acc).1.found_highlights +
        (l.foldl (step_record doc.enum annot use_fuzzy) acc).1.not_found_highlights =
        acc.1.found_highlights + acc.1.not_found_highlights + l.length ∧
      (acc.1.fuzzy_highlights ≤ acc.1.found_highlights →
        (l.foldl (step_record doc.enum annot use_fuzzy) acc).1.fuzzy_highlights ≤
          (l.foldl (step_record doc.enum annot use_fuzzy) acc).1.found_highlights) := by
    intro l
    induction l with
    | nil => exact fun acc => ⟨rfl, by simp, fun h => h⟩
    | cons hl t ih =>
      intro acc
      obtain ⟨iht, ihsum, ihf⟩ := ih (step_record doc.enum annot use_fuzzy acc hl)
      simp only [List.foldl_cons, List.length_cons]
      rcases step_record_outcome doc.enum annot use_fuzzy acc hl with h | ⟨b, h⟩
      · rw [h] at iht ihsum ihf
        refine ⟨by rw [iht]; rfl, ?_, ?_⟩
        · rw [ihsum]
          simp only [inc_not_found]
          omega
        · intro hle
          apply ihf
          simpa only [inc_not_found] using hle
      · rw [h] at iht ihsum ihf
        refine ⟨by rw [iht]; rfl, ?_, ?_⟩
        · rw [ihsum]
          simp only [inc_found]
          omega
        · intro hle
          apply ihf
          simp only [inc_found]
          cases b with
          | false => simpa using Nat.le_succ_of_le hle
          | true => simpa using Nat.succ_le_succ hle
  obtain ⟨ht, hsum, hf⟩ := main hls (⟨hls.length, 0, 0, 0⟩, init_state)
  unfold process_highlights
  constructor
  · dsimp only at ht hsum
    omega
  · exact hf (by simp)

/-- C4: (1) the exact pass scans pages in order, stops at the first page
with at least one occurrence and returns all of that page's occurrences;
(2) when the exact pass found quads the fuzzy pass does not run (the
per-run state is untouched) and the record is counted with the fuzzy flag
off, so an exact match is always preferred over a fuzzy one; (3) the
annotation loop accepts at most one region list, on the single first page
where any found quad survives that page's search filter. -/
theorem C4_first_page_wins_exact_preferred :
    (∀ (pre : List (Nat × Page)) (ip : Nat × Page) (post : List (Nat × Page)) (text : String),
      (∀ q ∈ pre, find_text_exact q.2 text = []) →
      find_text_exact ip.2 text ≠ [] →
      exact_loop text (pre ++ ip :: post) = find_text_exact ip.2 text) ∧
    (∀ (pages : List (Nat × Page)) (annot : AnnotOracle) (use_fuzzy : Bool)
      (acc : Report × RunState) (hl : HighlightRecord),
      exact_loop hl.original pages ≠ [] →
      (step_record pages annot use_fuzzy acc hl).2 = acc.2 ∧
      ((step_record pages annot use_fuzzy acc hl).1 = inc_not_found acc.1 ∨
       (step_record pages annot use_fuzzy acc hl).1 = inc_found acc.1 false)) ∧
    (∀ (annot : AnnotOracle) (text : String) (color : ColorRGB) (fq : List Quad)
      (pre : List (Nat × Page)) (ip : Nat × Page) (post : List (Nat × Page)),
      (∀ q ∈ pre, fq.filter (fun qd => decide (qd ∈ search_for q.2 text)) = []) →
      fq.filter (fun qd => decide (qd ∈ search_for ip.2 text)) ≠ [] →
      annot_loop annot text color fq (pre ++ ip :: post) =
        some (ip.1, fq.filter (fun qd => decide (qd ∈ search_for ip.2 text)),
          add_highlight_annot annot ip.1
            (fq.filter (fun qd => decide (qd ∈ search_for ip.2 text))) color text)) := by
  refine ⟨?_, ?_, ?_⟩
  · intro pre ip post text hpre hip
    induction pre with
    | nil =>
      have hE : (find_text_exact ip.2 text).isEmpty = false := by
        cases hx : find_text_exact ip.2 text with
        | nil => exact absurd hx hip
        | cons a l => rfl
      simp [exact_loop, hE]
    | cons q qs ih =>
      have hq : find_text_exact q.2 text = [] := hpre q (List.mem_cons_self q qs)
      simp only [List.cons_append, exact_loop, hq, List.isEmpty_nil, if_true]
      exact ih (fun r hr => hpre r (List.mem_cons_of_mem q hr))
  · intro pages annot use_fuzzy acc hl h
    have hloc := located_quads_of_exact pages use_fuzzy hl.original acc.2 h
    constructor
    · show (located_quads pages use_fuzzy hl.original acc.2).2 = acc.2
      rw [hloc]
    · have : (step_record pages annot use_fuzzy acc hl).1 =
          finish_record annot pages acc.1 hl.original (map_color hl.highlightColor)
            (exact_loop hl.original pages, false) := by
        show finish_record annot pages acc.1 hl.original (map_color hl.highlightColor)
            (located_quads pages use_fuzzy hl.original acc.2).1 = _
        rw [hloc]
      rw [this]
      exact finish_record_cases annot pages acc.1 hl.original
        (map_color hl.highlightColor) (exact_loop hl.original pages, false)
  · intro annot text color fq pre ip post hpre hip
    induction pre with
    | nil =>
      have hE : (fq.filter (fun qd => decide (qd ∈ search_for ip.2 text))).isEmpty = false := by
        cases hx : fq.filter (fun qd => decide (qd ∈ search_for ip.2 text)) with
        | nil => exact absurd hx hip
        | cons a l => rfl
      simp [annot_loop, hE]
    | cons q qs ih =>
      have hq : fq.filter (fun qd => decide (qd ∈ search_for q.2 text)) = [] :=
        hpre q (List.mem_cons_self q qs)
      simp only [List.cons_append, annot_loop, hq, List.isEmpty_nil, if_true]
      exact ih (fun r hr => hpre r (List.mem_cons_of_mem q hr))

/-- Witness for C4 at a concrete two-page document: the first page has no
exact hit for "hello" (and no surviving filtered quad), the second page
does; the exact pass returns the second page's quads, the annotation loop
annotates exactly the second page, and a record with an exact hit is
counted without the fuzzy flag and without touching the state. -/
theorem C4_first_page_wins_exact_preferred_witness :
    exact_loop "hello" [(0, fooPage), (1, scenarioPage)] = find_text_exact scenarioPage "hello" ∧
    ((step_record scenarioDoc.enum annot_always true (⟨1, 0, 0, 0⟩, init_state) helloRecord).2 =
        init_state ∧
      ((step_record scenarioDoc.enum annot_always true (⟨1, 0, 0, 0⟩, init_state) helloRecord).1 =
          inc_not_found ⟨1, 0, 0, 0⟩ ∨
        (step_record scenarioDoc.enum annot_always true (⟨1, 0, 0, 0⟩, init_state) helloRecord).1 =
          inc_found ⟨1, 0, 0, 0⟩ false)) ∧
    annot_loop annot_always "hello" (1, 1, 0) [helloQuad] [(0, fooPage), (1, scenarioPage)] =
      some (1, [helloQuad].filter (fun qd => decide (qd ∈ search_for scenarioPage "hello")),
        add_highlight_annot annot_always 1
          ([helloQuad].filter (fun qd => decide (qd ∈ search_for scenarioPage "hello")))
          (1, 1, 0) "hello") := by
  refine ⟨?_, ?_, ?_⟩
  · exact C4_first_page_wins_exact_preferred.1 [(0, fooPage)] (1, scenarioPage) [] "hello"
      (by intro q hq; rcases List.mem_singleton.mp hq with rfl; decide) (by decide)
  · exact C4_first_page_wins_exact_preferred.2.1 scenarioDoc.enum annot_always true
      (⟨1, 0, 0, 0⟩, init_state) helloRecord (by decide)
  · exact C4_first_page_wins_exact_preferred.2.2 annot_always "hello" (1, 1, 0) [helloQuad]
      [(0, fooPage)] (1, scenarioPage) []
      (by intro q hq; rcases List.mem_singleton.mp hq with rfl; decide) (by decide)

/-- With fuzzy disabled, one record step never raises the fuzzy counter. -/
theorem step_record_fuzzy_off (pages : List (Nat × Page)) (annot : AnnotOracle)
    (acc : Report × RunState) (hl : HighlightRecord) :
    (step_record pages annot false acc hl).1.fuzzy_highlights =
      acc.1.fuzzy_highlights := by
  have hfd : (located_quads pages false hl.original acc.2).1.2 = false := by
    simp only [located_quads, Bool.and_false, Bool.false_eq_true, if_false]
    split <;> rfl
  rcases finish_record_cases annot pages acc.1 hl.original (map_color hl.highlightColor)
      (located_quads pages false hl.original acc.2).1 with h | h
  · show (finish_record annot pages acc.1 hl.original (map_color hl.highlightColor)
        (located_quads pages false hl.original acc.2).1).fuzzy_highlights = _
    rw [h]
    rfl
  · show (finish_record annot pages acc.1 hl.original (map_color hl.highlightColor)
        (located_quads pages false hl.original acc.2).1).fuzzy_highlights = _
    rw [h, hfd]
    simp [inc_found]

/-- C6: with fuzzy search disabled the report's fuzzy counter stays 0 over
any whole run, and a record the exact pass misses is counted `notFound`
with the per-run state untouched (the fuzzy pass never runs, so no Fuzzy
result can be produced, even when a near-duplicate token exists). -/
theorem C6_disabled_fuzzy_never_matches :
    (∀ (doc : List Page) (annot : AnnotOracle) (hls : List HighlightRecord),
       (process_highlights doc annot false hls).1.fuzzy_highlights = 0) ∧
    (∀ (pages : List (Nat × Page)) (annot : AnnotOracle) (acc : Report × RunState)
       (hl : HighlightRecord),
       exact_loop hl.original pages = [] →
       step_record pages annot false acc hl = (inc_not_found acc.1, acc.2)) := by
  constructor
  · intro doc annot hls
    have main : ∀ (l : List HighlightRecord) (acc : Report × RunState),
        (l.foldl (step_record doc.enum annot false) acc).1.fuzzy_highlights =
          acc.1.fuzzy_highlights := by
      intro l
      induction l with
      | nil => exact fun _ => rfl
      | cons hl t ih =>
        intro acc
        simp only [List.foldl_cons]
        rw [ih (step_record doc.enum annot false acc hl), step_record_fuzzy_off]
    show (hls.foldl (step_record doc.enum annot false)
        (⟨hls.length, 0, 0, 0⟩, init_state)).1.fuzzy_highlights = 0
    exact main hls _
  · intro pages annot acc hl h
    have hloc : located_quads pages false hl.original acc.2 = (([], false), acc.2) := by
      simp [located_quads, h]
    show (finish_record annot pages acc.1 hl.original (map_color hl.highlightColor)
        (located_quads pages false hl.original acc.2).1,
      (located_quads pages false hl.original acc.2).2) = (inc_not_found acc.1, acc.2)
    rw [hloc]
    simp [finish_record]

/-- Witness for C6: a run over the page holding the near-duplicate token
"foobar" (which scores 100 against "foo") with fuzzy disabled: the fuzzy
counter is 0 and the record's step is exactly a not-found count. -/
theorem C6_disabled_fuzzy_never_matches_witness :
    (process_highlights fooDoc annot_always false [fooRecord]).1.fuzzy_highlights = 0 ∧
    step_record fooDoc.enum annot_always false (⟨1, 0, 0, 0⟩, init_state) fooRecord =
      (inc_not_found ⟨1, 0, 0, 0⟩, init_state) :=
  ⟨C6_disabled_fuzzy_never_matches.1 fooDoc annot_always [fooRecord],
   C6_disabled_fuzzy_never_matches.2 fooDoc.enum annot_always (⟨1, 0, 0, 0⟩, init_state)
     fooRecord (by decide)⟩

/-- The cache discipline of a run state: every page index logged as
text-extracted is present in the cache, and is logged at most once. -/
def cache_inv (st : RunState) : Prop :=
  st.text_log.Nodup ∧ ∀ i ∈ st.text_log, st.text_cache.lookup i ≠ none

/-- The fresh state satisfies the cache discipline. -/
theorem cache_inv_init : cache_inv init_state :=
  ⟨List.nodup_nil, by intro i h; cases h⟩

/-- `extract_page_text` preserves the cache discipline: it performs the
primitive extraction (and logs it) only for pages not yet in the cache,
and it inserts the page into the cache when it does. -/
theorem extract_page_text_inv (i : Nat) (p : Page) (st : RunState) (h : cache_inv st) :
    cache_inv (extract_page_text i p st).2 := by
  unfold extract_page_text
  cases hx : st.text_cache.lookup i with
  | some t => exact h
  | none =>
    refine ⟨List.nodup_cons.mpr ⟨fun hmem => (h.2 i hmem) hx, h.1⟩, ?_⟩
    intro j hj
    rcases List.mem_cons.mp hj with rfl | hj'
    · simp [List.lookup]
    · by_cases hji : j = i
      · subst hji
        simp [List.lookup]
      · have hbeq : (j == i) = false := beq_eq_false_iff_ne.mpr hji
        simp only [List.lookup, hbeq]
        exact h.2 j hj'

/-- `find_text_fuzzy` preserves the cache discipline (its words-extraction
log entry does not touch the text cache or the text log). -/
theorem find_text_fuzzy_inv (i : Nat) (p : Page) (text : String) (st : RunState)
    (h : cache_inv st) : cache_inv (find_text_fuzzy i p text st).2 := by
  have he := extract_page_text_inv i p st h
  exact ⟨he.1, he.2⟩

/-- The fuzzy pass preserves the cache discipline. -/
theorem fuzzy_loop_inv (text : String) (pages : List (Nat × Page)) (st : RunState)
    (h : cache_inv st) : cache_inv (fuzzy_loop text pages st).2 := by
  induction pages generalizing st with
  | nil => exact h
  | cons ip ps ih =>
    simp only [fuzzy_loop]
    cases hr : (find_text_fuzzy ip.1 ip.2 text st).1 with
    | nil =>
      simp only [hr]
      exact ih _ (find_text_fuzzy_inv _ _ _ _ h)
    | cons q qs =>
      simp only [hr]
      exact find_text_fuzzy_inv _ _ _ _ h

/-- The locate step preserves the cache discipline. -/
theorem located_quads_inv (pages : List (Nat × Page)) (use_fuzzy : Bool) (text : String)
    (st : RunState) (h : cache_inv st) : cache_inv (located_quads pages use_fuzzy text st).2 := by
  simp only [located_quads]
  split
  · exact fuzzy_loop_inv _ _ _ h
  · exact h

/-- One record step preserves the cache discipline. -/
theorem step_record_inv (pages : List (Nat × Page)) (annot : AnnotOracle)
    (use_fuzzy : Bool) (acc : Report × RunState) (hl : HighlightRecord)
    (h : cache_inv acc.2) : cache_inv (step_record pages annot use_fuzzy acc hl).2 := by
  show cache_inv (located_quads pages use_fuzzy hl.original acc.2).2
  exact located_quads_inv _ _ _ _ h

/-- C3 (amended): over any whole run, the plain page text
(`page.get_text()`) is extracted at most once per page index — the cache
keyed by page index prevents recomputation across repeated lookups. -/
theorem C3_page_text_extracted_once (doc : List Page) (annot : AnnotOracle)
    (use_fuzzy : Bool) (hls : List HighlightRecord) (i : Nat) :
    (process_highlights doc annot use_fuzzy hls).2.text_log.count i ≤ 1 := by
  have main : ∀ (l : List HighlightRecord) (acc : Report × RunState), cache_inv acc.2 →
      cache_inv (l.foldl (step_record doc.enum annot use_fuzzy) acc).2 := by
    intro l
    induction l with
    | nil => exact fun _ h => h
    | cons hl t ih =>
      intro acc h
      simp only [List.foldl_cons]
      exact ih _ (step_record_inv doc.enum annot use_fuzzy acc hl h)
  have hinv : cache_inv (process_highlights doc annot use_fuzzy hls).2 :=
    main hls (⟨hls.length, 0, 0, 0⟩, init_state) cache_inv_init
  exact List.nodup_iff_count_le_one.mp hinv.1 i
